import Mathlib

set_option linter.unusedSectionVars false

/-!
Verification of the graphdb-testing repository's specification.

The repository's core component is the `xmt_hash_set` open-addressing
concurrent hash set.  Its implementation header is not among the
provided source files (only its test driver `test_xmt_hash_set.cpp`
is), so the hash-set data model and operations below are modelled from
the specification (spec.md §3, §4.1-§4.4, §7), specialised to the
sequential behaviour the claims describe.  The mesh-graph generator
(`generate_mesh_graph.hpp`), the independent-set tutorial algorithm
(`exercise4.cpp`) and the string utility `matches` (`mtgl_string.hpp`)
are translated directly from the provided sources.
-/

namespace XmtHashSet

/-- Modelled from the spec: one cell of the backing Slot Array (spec §3
"Slot"): a tri-state occupancy marker, with a stored value meaningful
only in the `OCCUPIED` state. -/
inductive Slot (α : Type) where
| empty : Slot α
| occupied (v : α) : Slot α
| tombstone : Slot α
deriving DecidableEq, Repr

/-- Modelled from the spec: the Hash Set container (spec §3 "Hash
Set"): a fixed-capacity array of slots plus the maintained `size`
counter. -/
structure HashSet (α : Type) where
  slots : List (Slot α)
  size : Nat
deriving DecidableEq, Repr

/-- Modelled from the spec: `capacity` is the number of slots (spec §3). -/
def capacity {α : Type} (hs : HashSet α) : Nat := hs.slots.length

/-- Slot lookup; out-of-range reads answer `EMPTY` (never taken on
indices produced by the probe sequence, which stay below capacity). -/
def slotAt {α : Type} (hs : HashSet α) (i : Nat) : Slot α :=
  hs.slots.getD i Slot.empty

/-- Modelled from the spec: the secondary probing step, "derived from a
second, independent hash of `value`" (spec §4.1), normalised so that it
is coprime to the capacity, which spec §4.1 requires so that the probe
sequence is a full permutation of the slot indices. -/
def stepOf {α : Type} (h2 : α → Nat) (v : α) (c : Nat) : Nat :=
  let t := 1 + h2 v % c
  if Nat.gcd t c = 1 then t else 1

/-- Modelled from the spec: `probe(value, capacity, attempt)` combines
the primary hash modulo the capacity with the secondary step (spec
§4.1). -/
def probe {α : Type} (h1 h2 : α → Nat) (v : α) (c a : Nat) : Nat :=
  (h1 v + a * stepOf h2 v c) % c

theorem stepOf_coprime {α : Type} (h2 : α → Nat) (v : α) (c : Nat) :
    Nat.gcd (stepOf h2 v c) c = 1 := by
  unfold stepOf
  by_cases h : Nat.gcd (1 + h2 v % c) c = 1
  · simp [h]
  · simp [h, Nat.gcd_one_left]

theorem probe_lt {α : Type} (h1 h2 : α → Nat) (v : α) {c : Nat} (a : Nat)
    (hc : 0 < c) : probe h1 h2 v c a < c :=
  Nat.mod_lt _ hc

theorem probe_inj {α : Type} (h1 h2 : α → Nat) (v : α) {c a b : Nat}
    (ha : a < c) (hb : b < c)
    (h : probe h1 h2 v c a = probe h1 h2 v c b) : a = b := by
  have hm : h1 v + a * stepOf h2 v c ≡ h1 v + b * stepOf h2 v c [MOD c] := h
  have hm2 : a * stepOf h2 v c ≡ b * stepOf h2 v c [MOD c] :=
    Nat.ModEq.add_left_cancel' (h1 v) hm
  have hco : Nat.gcd c (stepOf h2 v c) = 1 := by
    rw [Nat.gcd_comm]; exact stepOf_coprime h2 v c
  have hab : a ≡ b [MOD c] := Nat.ModEq.cancel_right_of_coprime hco hm2
  have hmod : a % c = b % c := hab
  rwa [Nat.mod_eq_of_lt ha, Nat.mod_eq_of_lt hb] at hmod

theorem probe_range_perm {α : Type} (h1 h2 : α → Nat) (v : α) {c : Nat}
    (hc : 0 < c) :
    List.Perm ((List.range c).map (probe h1 h2 v c)) (List.range c) := by
  have hnd : ((List.range c).map (probe h1 h2 v c)).Nodup := by
    refine List.Nodup.map_on ?_ (List.nodup_range c)
    intro a hax b hbx h
    exact probe_inj h1 h2 v (List.mem_range.mp hax) (List.mem_range.mp hbx) h
  have hsub : ((List.range c).map (probe h1 h2 v c)) ⊆ List.range c := by
    intro x hx
    rcases List.mem_map.mp hx with ⟨a, _, rfl⟩
    exact List.mem_range.mpr (probe_lt h1 h2 v a hc)
  have hsp := List.subperm_of_subset hnd hsub
  exact hsp.perm_of_length_le (by simp)

/-- Every slot index below the capacity is hit by some probe attempt
below the capacity. -/
theorem probe_surj {α : Type} (h1 h2 : α → Nat) (v : α) {c : Nat}
    (hc : 0 < c) (j : Nat) (hj : j < c) :
    ∃ a, a < c ∧ probe h1 h2 v c a = j := by
  have hperm := probe_range_perm h1 h2 v (α := α) hc
  have hmem : j ∈ (List.range c).map (probe h1 h2 v c) :=
    hperm.mem_iff.mpr (List.mem_range.mpr hj)
  rcases List.mem_map.mp hmem with ⟨a, ha, hpa⟩
  exact ⟨a, List.mem_range.mp ha, hpa⟩

/-- C3: for every value and every capacity c ≥ 1, the probe function
visits every slot index in 0..c-1 exactly once as the attempt ranges
over 0..c-1 — the probe attempts form a permutation of the slot
indices. -/
theorem probe_is_permutation {α : Type} (h1 h2 : α → Nat) (v : α) (c : Nat)
    (hc : 1 ≤ c) :
    List.Perm ((List.range c).map (probe h1 h2 v c)) (List.range c) :=
  probe_range_perm h1 h2 v hc

theorem probe_is_permutation_witness :
    List.Perm ((List.range 5).map (probe id id 3 5)) (List.range 5) :=
  probe_is_permutation id id 3 5 (by decide)

variable {α : Type} [DecidableEq α]

/-- Modelled from the spec: `member(value)` (spec §4.2) runs the probe
sequence from attempt 0; true on an `OCCUPIED` slot with equal value,
false on `EMPTY`; tombstones are transparent.  The fuel argument bounds
the walk by the remaining attempts of the probe sequence. -/
def memberFrom (h1 h2 : α → Nat) (hs : HashSet α) (v : α) : Nat → Nat → Bool
| _, 0 => false
| a, fuel + 1 =>
  match slotAt hs (probe h1 h2 v (capacity hs) a) with
  | Slot.occupied w => if w = v then true else memberFrom h1 h2 hs v (a + 1) fuel
  | Slot.empty => false
  | Slot.tombstone => memberFrom h1 h2 hs v (a + 1) fuel

/-- Modelled from the spec: `member` runs the full probe sequence of
`capacity` attempts (spec §4.1, §4.2). -/
def member (h1 h2 : α → Nat) (hs : HashSet α) (v : α) : Bool :=
  memberFrom h1 h2 hs v 0 (capacity hs)

/-- Modelled from the spec: the outcome of `insert` — `existed = true`,
`existed = false`, or the `CapacityExceeded` failure (spec §4.2, §7). -/
inductive InsRes where
| inserted : InsRes
| existed : InsRes
| capacityExceeded : InsRes
deriving DecidableEq, Repr

/-- Modelled from the spec: the probe walk of `insert(value)` (spec
§4.2): an `OCCUPIED` slot with equal value answers `existed`; an
`EMPTY` slot is claimed, publishing the value and incrementing `size`;
tombstoned slots are never reused and probing continues through them;
an exhausted probe sequence fails with `CapacityExceeded`, leaving the
table unchanged (spec §7: no side effects on failure). -/
def insertFrom (h1 h2 : α → Nat) (hs : HashSet α) (v : α) :
    Nat → Nat → InsRes × HashSet α
| _, 0 => (InsRes.capacityExceeded, hs)
| a, fuel + 1 =>
  match slotAt hs (probe h1 h2 v (capacity hs) a) with
  | Slot.occupied w =>
      if w = v then (InsRes.existed, hs)
      else insertFrom h1 h2 hs v (a + 1) fuel
  | Slot.empty =>
      (InsRes.inserted,
        ⟨hs.slots.set (probe h1 h2 v (capacity hs) a) (Slot.occupied v),
          hs.size + 1⟩)
  | Slot.tombstone => insertFrom h1 h2 hs v (a + 1) fuel

/-- Modelled from the spec: `insert` runs the full probe sequence of
`capacity` attempts (spec §4.2). -/
def insert (h1 h2 : α → Nat) (hs : HashSet α) (v : α) : InsRes × HashSet α :=
  insertFrom h1 h2 hs v 0 (capacity hs)

/-- Modelled from the spec: the probe walk of `erase(value)` (spec
§4.2): an `OCCUPIED` slot with equal value transitions one-way to
`TOMBSTONE` and `size` is decremented; reaching `EMPTY` (or exhausting
the sequence) answers `found = false` with the table unchanged. -/
def eraseFrom (h1 h2 : α → Nat) (hs : HashSet α) (v : α) :
    Nat → Nat → Bool × HashSet α
| _, 0 => (false, hs)
| a, fuel + 1 =>
  match slotAt hs (probe h1 h2 v (capacity hs) a) with
  | Slot.occupied w =>
      if w = v then
        (true,
          ⟨hs.slots.set (probe h1 h2 v (capacity hs) a) Slot.tombstone,
            hs.size - 1⟩)
      else eraseFrom h1 h2 hs v (a + 1) fuel
  | Slot.empty => (false, hs)
  | Slot.tombstone => eraseFrom h1 h2 hs v (a + 1) fuel

/-- Modelled from the spec: `erase` runs the full probe sequence of
`capacity` attempts (spec §4.2). -/
def erase (h1 h2 : α → Nat) (hs : HashSet α) (v : α) : Bool × HashSet α :=
  eraseFrom h1 h2 hs v 0 (capacity hs)

/-- Modelled from the spec: `clear()` resets every slot to `EMPTY` and
`size` to 0; the capacity is unchanged (spec §4.2). -/
def clear (hs : HashSet α) : HashSet α :=
  ⟨hs.slots.map (fun _ => Slot.empty), 0⟩

/-- Modelled from the spec: the error kinds of spec §7. -/
inductive Err where
| capacityExceeded : Err
| invalidConfiguration : Err
deriving DecidableEq, Repr

/-- Modelled from the spec: construction with an explicit initial
capacity; zero capacity is `InvalidConfiguration` (spec §3, §7). -/
def mkSet (c : Nat) : Except Err (HashSet α) :=
  if c = 0 then Except.error Err.invalidConfiguration
  else Except.ok ⟨List.replicate c Slot.empty, 0⟩

/-- Modelled from the spec: the reinsertion pass of the Resize Engine
(spec §4.3): iterate the old table's slots; every `OCCUPIED` value is
inserted into the new table with the same insert algorithm; tombstoned
and empty slots are skipped; a failed reinsertion aborts with
`CapacityExceeded`.  The new table's `size` counter accumulates the
count of successful reinsertions. -/
def reinsertAll (h1 h2 : α → Nat) :
    List (Slot α) → HashSet α → Except Err (HashSet α)
| [], t => Except.ok t
| Slot.occupied v :: rest, t =>
  match insert h1 h2 t v with
  | (InsRes.capacityExceeded, _) => Except.error Err.capacityExceeded
  | (_, t2) => reinsertAll h1 h2 rest t2
| Slot.empty :: rest, t => reinsertAll h1 h2 rest t
| Slot.tombstone :: rest, t => reinsertAll h1 h2 rest t

/-- Modelled from the spec: `resize(new_capacity)` (spec §4.3, §7):
zero capacity is `InvalidConfiguration`; otherwise a fresh all-`EMPTY`
slot array of the requested capacity is built and the old table's live
elements are reinserted, with `size` recomputed from the count of
successful reinsertions. -/
def resize (h1 h2 : α → Nat) (hs : HashSet α) (c : Nat) :
    Except Err (HashSet α) :=
  if c = 0 then Except.error Err.invalidConfiguration
  else reinsertAll h1 h2 hs.slots ⟨List.replicate c Slot.empty, 0⟩

/-- Whether a slot is in the `OCCUPIED` state. -/
def isOccupied : Slot α → Bool
| Slot.occupied _ => true
| _ => false

/-- Number of `OCCUPIED` slots of the table. -/
def occupiedCount (hs : HashSet α) : Nat :=
  hs.slots.countP isOccupied

/-- The values of the `OCCUPIED` slots of a slot list, in slot order. -/
def liveOf : List (Slot α) → List α :=
  List.filterMap (fun s =>
    match s with
    | Slot.occupied v => some v
    | _ => none)

/-- The live values of the table: the values of its `OCCUPIED` slots,
in slot order. -/
def liveValues (hs : HashSet α) : List α :=
  liveOf hs.slots

/-- Modelled from the spec: the data-model invariant that `size` is the
count of slots currently `OCCUPIED` (spec §3). -/
def SizeInv (hs : HashSet α) : Prop :=
  hs.size = occupiedCount hs

theorem memberFrom_true_insertFrom (h1 h2 : α → Nat) (hs : HashSet α) (v : α) :
    ∀ fuel a, memberFrom h1 h2 hs v a fuel = true →
      insertFrom h1 h2 hs v a fuel = (InsRes.existed, hs) := by
  intro fuel
  induction fuel with
  | zero => intro a h; simp [memberFrom] at h
  | succ f ih =>
    intro a h
    cases hslot : slotAt hs (probe h1 h2 v (capacity hs) a) with
    | occupied w =>
      by_cases hw : w = v
      · simp [insertFrom, hslot, hw]
      · simp only [memberFrom, hslot, if_neg hw] at h
        simp only [insertFrom, hslot, if_neg hw]
        exact ih _ h
    | empty => simp [memberFrom, hslot] at h
    | tombstone =>
      simp only [memberFrom, hslot] at h
      simp only [insertFrom, hslot]
      exact ih _ h

theorem memberFrom_false_insertFrom (h1 h2 : α → Nat) (hs : HashSet α) (v : α) :
    ∀ fuel a, memberFrom h1 h2 hs v a fuel = false →
      (∃ k, a ≤ k ∧ k < a + fuel ∧
        slotAt hs (probe h1 h2 v (capacity hs) k) = Slot.empty) →
      ∃ p, slotAt hs p = Slot.empty ∧
        insertFrom h1 h2 hs v a fuel =
          (InsRes.inserted,
            ⟨hs.slots.set p (Slot.occupied v), hs.size + 1⟩) := by
  intro fuel
  induction fuel with
  | zero =>
    intro a _ hex
    rcases hex with ⟨k, hk1, hk2, _⟩
    omega
  | succ f ih =>
    intro a h hex
    cases hslot : slotAt hs (probe h1 h2 v (capacity hs) a) with
    | occupied w =>
      by_cases hw : w = v
      · simp [memberFrom, hslot, hw] at h
      · simp only [memberFrom, hslot, if_neg hw] at h
        simp only [insertFrom, hslot, if_neg hw]
        refine ih _ h ?_
        rcases hex with ⟨k, hk1, hk2, hk3⟩
        refine ⟨k, ?_, by omega, hk3⟩
        rcases Nat.eq_or_lt_of_le hk1 with rfl | hlt
        · rw [hk3] at hslot; exact absurd hslot (by simp)
        · omega
    | empty =>
      refine ⟨probe h1 h2 v (capacity hs) a, hslot, ?_⟩
      simp [insertFrom, hslot]
    | tombstone =>
      simp only [memberFrom, hslot] at h
      simp only [insertFrom, hslot]
      refine ih _ h ?_
      rcases hex with ⟨k, hk1, hk2, hk3⟩
      refine ⟨k, ?_, by omega, hk3⟩
      rcases Nat.eq_or_lt_of_le hk1 with rfl | hlt
      · rw [hk3] at hslot; exact absurd hslot (by simp)
      · omega

theorem insertFrom_exhausted (h1 h2 : α → Nat) (hs : HashSet α) (v : α) :
    ∀ fuel a,
      (∀ k, a ≤ k → k < a + fuel →
        slotAt hs (probe h1 h2 v (capacity hs) k) ≠ Slot.empty ∧
        slotAt hs (probe h1 h2 v (capacity hs) k) ≠ Slot.occupied v) →
      insertFrom h1 h2 hs v a fuel = (InsRes.capacityExceeded, hs) := by
  intro fuel
  induction fuel with
  | zero => intro a _; simp [insertFrom]
  | succ f ih =>
    intro a hk
    have hka := hk a (Nat.le_refl a) (by omega)
    cases hslot : slotAt hs (probe h1 h2 v (capacity hs) a) with
    | occupied w =>
      have hw : w ≠ v := by
        intro hwv; exact hka.2 (by rw [hslot, hwv])
      simp only [insertFrom, hslot, if_neg hw]
      exact ih _ (fun k h1k h2k => hk k (by omega) (by omega))
    | empty => exact absurd hslot hka.1
    | tombstone =>
      simp only [insertFrom, hslot]
      exact ih _ (fun k h1k h2k => hk k (by omega) (by omega))

/-- C1: insert has set semantics — inserting a value that is already a
member answers `existed = true` and leaves the table (hence `size`)
unchanged; inserting a value that is not a member, when the probe
sequence reaches an `EMPTY` slot, stores the value in exactly one
previously empty slot, answers `existed = false`, and increases `size`
by exactly one. -/
theorem insert_set_semantics (h1 h2 : α → Nat) (hs : HashSet α) (v : α) :
    (member h1 h2 hs v = true → insert h1 h2 hs v = (InsRes.existed, hs)) ∧
    (member h1 h2 hs v = false →
      (∃ a, a < capacity hs ∧
        slotAt hs (probe h1 h2 v (capacity hs) a) = Slot.empty) →
      ∃ p, slotAt hs p = Slot.empty ∧
        insert h1 h2 hs v =
          (InsRes.inserted,
            ⟨hs.slots.set p (Slot.occupied v), hs.size + 1⟩)) := by
  constructor
  · intro h
    exact memberFrom_true_insertFrom h1 h2 hs v (capacity hs) 0 h
  · intro h hex
    refine memberFrom_false_insertFrom h1 h2 hs v (capacity hs) 0 h ?_
    rcases hex with ⟨a, ha, hs1⟩
    exact ⟨a, Nat.zero_le a, by omega, hs1⟩

theorem insert_set_semantics_witness :
    insert id id
        (⟨[Slot.occupied 0, Slot.occupied 1, Slot.empty, Slot.empty], 2⟩ :
          HashSet Nat) 1 =
      (InsRes.existed,
        ⟨[Slot.occupied 0, Slot.occupied 1, Slot.empty, Slot.empty], 2⟩) ∧
    (insert id id
        (⟨[Slot.occupied 0, Slot.occupied 1, Slot.empty, Slot.empty], 2⟩ :
          HashSet Nat) 3).1 = InsRes.inserted ∧
    (insert id id
        (⟨[Slot.occupied 0, Slot.occupied 1, Slot.empty, Slot.empty], 2⟩ :
          HashSet Nat) 3).2.size = 3 := by
  refine ⟨(insert_set_semantics id id _ 1).1 (by decide), ?_, ?_⟩ <;>
  · rcases (insert_set_semantics id id
        (⟨[Slot.occupied 0, Slot.occupied 1, Slot.empty, Slot.empty], 2⟩ :
          HashSet Nat) 3).2 (by decide) ⟨0, by decide, by decide⟩ with
      ⟨p, _, he⟩
    rw [he]

/-- C2: when the probe sequence for a value reaches neither a slot
holding the value nor an `EMPTY` slot over all `capacity` attempts,
insert fails with `CapacityExceeded` and leaves the table unchanged —
no implicit growth, no infinite loop, no silent drop. -/
theorem insert_capacity_exceeded (h1 h2 : α → Nat) (hs : HashSet α) (v : α)
    (hfull : ∀ a, a < capacity hs →
      slotAt hs (probe h1 h2 v (capacity hs) a) ≠ Slot.empty ∧
      slotAt hs (probe h1 h2 v (capacity hs) a) ≠ Slot.occupied v) :
    insert h1 h2 hs v = (InsRes.capacityExceeded, hs) := by
  refine insertFrom_exhausted h1 h2 hs v (capacity hs) 0 ?_
  intro k h1k h2k
  exact hfull k (by omega)

theorem getD_set_self {β : Type} (l : List β) (p : Nat) (s d : β)
    (hp : p < l.length) : (l.set p s).getD p d = s := by
  simp [List.getD_eq_getElem?_getD, List.getElem?_set_self hp]

theorem getD_set_ne {β : Type} (l : List β) {p q : Nat} (s d : β)
    (hpq : p ≠ q) : (l.set p s).getD q d = l.getD q d := by
  simp [List.getD_eq_getElem?_getD, List.getElem?_set_ne hpq]

theorem slotAt_occupied_lt (hs : HashSet α) (p : Nat) (v : α)
    (h : slotAt hs p = Slot.occupied v) : p < capacity hs := by
  by_contra hge
  have hlen : hs.slots.length ≤ p := by
    simpa [capacity] using Nat.le_of_not_lt hge
  rw [slotAt, List.getD_eq_getElem?_getD, List.getElem?_eq_none hlen] at h
  exact absurd h (by simp)

theorem occupiedCount_pos (hs : HashSet α) (p : Nat) (v : α)
    (h : slotAt hs p = Slot.occupied v) : 1 ≤ occupiedCount hs := by
  have hp : p < hs.slots.length := slotAt_occupied_lt hs p v h
  have hsl : hs.slots[p] = Slot.occupied v := by
    rw [slotAt, List.getD_eq_getElem?_getD, List.getElem?_eq_getElem hp] at h
    simpa using h
  refine List.countP_pos_iff.mpr ⟨Slot.occupied v, ?_, by simp [isOccupied]⟩
  rw [← hsl]
  exact List.getElem_mem hp

theorem countP_set_tombstone (l : List (Slot α)) :
    ∀ p v, p < l.length → l.getD p Slot.empty = Slot.occupied v →
      (l.set p Slot.tombstone).countP isOccupied + 1 =
        l.countP isOccupied := by
  induction l with
  | nil => intro p v hp _; simp at hp
  | cons s t ih =>
    intro p v hp hslot
    cases p with
    | zero =>
      simp only [List.getD_cons_zero] at hslot
      subst hslot
      simp [List.countP_cons, isOccupied]
    | succ q =>
      simp only [List.getD_cons_succ] at hslot
      have := ih q v (by simpa using hp) hslot
      simp only [List.set_cons_succ, List.countP_cons]
      omega

theorem countP_set_occupied (l : List (Slot α)) :
    ∀ p (v : α), p < l.length → l.getD p Slot.empty = Slot.empty →
      (l.set p (Slot.occupied v)).countP isOccupied =
        l.countP isOccupied + 1 := by
  induction l with
  | nil => intro p v hp _; simp at hp
  | cons s t ih =>
    intro p v hp hslot
    cases p with
    | zero =>
      simp only [List.getD_cons_zero] at hslot
      subst hslot
      simp [List.countP_cons, isOccupied]
    | succ q =>
      simp only [List.getD_cons_succ] at hslot
      have := ih q v (by simpa using hp) hslot
      simp only [List.set_cons_succ, List.countP_cons]
      omega

theorem memberFrom_true_eraseFrom (h1 h2 : α → Nat) (hs : HashSet α) (v : α) :
    ∀ fuel a, memberFrom h1 h2 hs v a fuel = true →
      ∃ p, slotAt hs p = Slot.occupied v ∧
        eraseFrom h1 h2 hs v a fuel =
          (true, ⟨hs.slots.set p Slot.tombstone, hs.size - 1⟩) := by
  intro fuel
  induction fuel with
  | zero => intro a h; simp [memberFrom] at h
  | succ f ih =>
    intro a h
    cases hslot : slotAt hs (probe h1 h2 v (capacity hs) a) with
    | occupied w =>
      by_cases hw : w = v
      · rw [hw] at hslot
        refine ⟨probe h1 h2 v (capacity hs) a, hslot, ?_⟩
        simp [eraseFrom, hslot]
      · simp only [memberFrom, hslot, if_neg hw] at h
        simp only [eraseFrom, hslot, if_neg hw]
        exact ih _ h
    | empty => simp [memberFrom, hslot] at h
    | tombstone =>
      simp only [memberFrom, hslot] at h
      simp only [eraseFrom, hslot]
      exact ih _ h

theorem memberFrom_false_of_not_present (h1 h2 : α → Nat) (hs : HashSet α)
    (v : α) (hnv : ∀ i, slotAt hs i ≠ Slot.occupied v) :
    ∀ fuel a, memberFrom h1 h2 hs v a fuel = false := by
  intro fuel
  induction fuel with
  | zero => intro a; simp [memberFrom]
  | succ f ih =>
    intro a
    cases hslot : slotAt hs (probe h1 h2 v (capacity hs) a) with
    | occupied w =>
      have hw : w ≠ v := by
        intro hwv; exact hnv _ (by rw [hslot, hwv])
      simp only [memberFrom, hslot, if_neg hw]
      exact ih _
    | empty => simp [memberFrom, hslot]
    | tombstone =>
      simp only [memberFrom, hslot]
      exact ih _

theorem memberFrom_set_tombstone (h1 h2 : α → Nat) (hs : HashSet α)
    (p : Nat) (v w : α) (m : Nat) (hw : w ≠ v)
    (hp : slotAt hs p = Slot.occupied v) :
    ∀ fuel a,
      memberFrom h1 h2 (⟨hs.slots.set p Slot.tombstone, m⟩ : HashSet α) w a
          fuel =
        memberFrom h1 h2 hs w a fuel := by
  have hcap : capacity (⟨hs.slots.set p Slot.tombstone, m⟩ : HashSet α) =
      capacity hs := by
    simp [capacity]
  intro fuel
  induction fuel with
  | zero => intro a; simp [memberFrom]
  | succ f ih =>
    intro a
    by_cases hip : probe h1 h2 w (capacity hs) a = p
    · have hnew : slotAt (⟨hs.slots.set p Slot.tombstone, m⟩ : HashSet α)
          (probe h1 h2 w (capacity (⟨hs.slots.set p Slot.tombstone, m⟩ :
            HashSet α)) a) = Slot.tombstone := by
        rw [hcap, hip]
        exact getD_set_self _ _ _ _ (slotAt_occupied_lt hs p v hp)
      have hold : slotAt hs (probe h1 h2 w (capacity hs) a) =
          Slot.occupied v := by rw [hip]; exact hp
      have hvw : v ≠ w := fun h => hw h.symm
      simp only [memberFrom, hnew, hold, if_neg hvw]
      exact ih _
    · have hnew : slotAt (⟨hs.slots.set p Slot.tombstone, m⟩ : HashSet α)
          (probe h1 h2 w (capacity (⟨hs.slots.set p Slot.tombstone, m⟩ :
            HashSet α)) a) = slotAt hs (probe h1 h2 w (capacity hs) a) := by
        rw [hcap]
        exact getD_set_ne _ _ _ (fun h => hip h.symm)
      cases hslot : slotAt hs (probe h1 h2 w (capacity hs) a) with
      | occupied u =>
        rw [hslot] at hnew
        by_cases hu : u = w
        · simp only [memberFrom, hnew, hslot, if_pos hu]
        · simp only [memberFrom, hnew, hslot, if_neg hu]
          exact ih _
      | empty =>
        rw [hslot] at hnew
        simp only [memberFrom, hnew, hslot]
      | tombstone =>
        rw [hslot] at hnew
        simp only [memberFrom, hnew, hslot]
        exact ih _

/-- C4: erasing a member value answers `found = true`, transitions the
value's slot to `TOMBSTONE`, and decreases `size` by exactly one; a
subsequent lookup of the erased value answers false, while every other
stored value is still a member because probing continues through
tombstones.  The table is assumed to satisfy the data-model invariants:
`size` counts the occupied slots and the value is stored in at most one
slot (set semantics). -/
theorem erase_semantics (h1 h2 : α → Nat) (hs : HashSet α) (v : α)
    (hmem : member h1 h2 hs v = true)
    (hsz : SizeInv hs)
    (huniq : ∀ p, p < capacity hs → ∀ q, q < capacity hs →
      slotAt hs p = Slot.occupied v → slotAt hs q = Slot.occupied v →
      p = q) :
    (erase h1 h2 hs v).1 = true ∧
    (∃ p, slotAt hs p = Slot.occupied v ∧
      (erase h1 h2 hs v).2.slots = hs.slots.set p Slot.tombstone) ∧
    (erase h1 h2 hs v).2.size + 1 = hs.size ∧
    member h1 h2 (erase h1 h2 hs v).2 v = false ∧
    (∀ w, w ≠ v → member h1 h2 hs w = true →
      member h1 h2 (erase h1 h2 hs v).2 w = true) := by
  rcases memberFrom_true_eraseFrom h1 h2 hs v (capacity hs) 0 hmem with
    ⟨p, hp, herase⟩
  have hplt : p < capacity hs := slotAt_occupied_lt hs p v hp
  have hsize1 : 1 ≤ hs.size := by
    rw [hsz]; exact occupiedCount_pos hs p v hp
  have herase2 : erase h1 h2 hs v =
      (true, ⟨hs.slots.set p Slot.tombstone, hs.size - 1⟩) := herase
  have hcap2 : capacity (erase h1 h2 hs v).2 = capacity hs := by
    rw [herase2]; simp [capacity]
  refine ⟨by rw [herase2], ⟨p, hp, by rw [herase2]⟩, ?_, ?_, ?_⟩
  · rw [herase2]; simp; omega
  · rw [herase2]
    refine memberFrom_false_of_not_present h1 h2 _ v ?_ (capacity _) 0
    intro i
    by_cases hip : i = p
    · subst hip
      rw [show slotAt (⟨hs.slots.set i Slot.tombstone, hs.size - 1⟩ :
          HashSet α) i = Slot.tombstone from
        getD_set_self _ _ _ _ (by simpa [capacity] using hplt)]
      simp
    · rw [show slotAt (⟨hs.slots.set p Slot.tombstone, hs.size - 1⟩ :
          HashSet α) i = slotAt hs i from
        getD_set_ne _ _ _ (fun h => hip h.symm)]
      intro hcon
      exact hip (huniq i (slotAt_occupied_lt hs i v hcon) p hplt hcon hp)
  · intro w hwv hmw
    rw [herase2]
    show memberFrom h1 h2 _ w 0
        (capacity (⟨hs.slots.set p Slot.tombstone, hs.size - 1⟩ :
          HashSet α)) = true
    rw [show capacity (⟨hs.slots.set p Slot.tombstone, hs.size - 1⟩ :
        HashSet α) = capacity hs from by simp [capacity]]
    rw [memberFrom_set_tombstone h1 h2 hs p v w _ hwv hp]
    exact hmw

theorem erase_semantics_witness :
    (erase id id
        (⟨[Slot.occupied 0, Slot.occupied 1, Slot.empty, Slot.empty], 2⟩ :
          HashSet Nat) 1).1 = true ∧
    (erase id id
        (⟨[Slot.occupied 0, Slot.occupied 1, Slot.empty, Slot.empty], 2⟩ :
          HashSet Nat) 1).2.size + 1 = 2 ∧
    member id id
        (erase id id
          (⟨[Slot.occupied 0, Slot.occupied 1, Slot.empty, Slot.empty], 2⟩ :
            HashSet Nat) 1).2 1 = false ∧
    member id id
        (erase id id
          (⟨[Slot.occupied 0, Slot.occupied 1, Slot.empty, Slot.empty], 2⟩ :
            HashSet Nat) 1).2 0 = true := by
  have h := erase_semantics id id
    (⟨[Slot.occupied 0, Slot.occupied 1, Slot.empty, Slot.empty], 2⟩ :
      HashSet Nat) 1 (by decide) (by unfold SizeInv occupiedCount; decide)
    (by decide)
  exact ⟨h.1, h.2.2.1, h.2.2.2.1, h.2.2.2.2 0 (by decide) (by decide)⟩

theorem insert_capacity_exceeded_witness :
    insert id id
        (⟨[Slot.occupied 0, Slot.occupied 1, Slot.occupied 2,
            Slot.occupied 3], 4⟩ : HashSet Nat) 4 =
      (InsRes.capacityExceeded,
        ⟨[Slot.occupied 0, Slot.occupied 1, Slot.occupied 2,
            Slot.occupied 3], 4⟩) :=
  insert_capacity_exceeded id id _ 4 (by decide)

theorem insertFrom_cases (h1 h2 : α → Nat) (hs : HashSet α) (v : α)
    (hc : 0 < capacity hs) :
    ∀ fuel a, (insertFrom h1 h2 hs v a fuel).2 = hs ∨
      ∃ p, p < capacity hs ∧ slotAt hs p = Slot.empty ∧
        insertFrom h1 h2 hs v a fuel =
          (InsRes.inserted,
            ⟨hs.slots.set p (Slot.occupied v), hs.size + 1⟩) := by
  intro fuel
  induction fuel with
  | zero => intro a; left; simp [insertFrom]
  | succ f ih =>
    intro a
    cases hslot : slotAt hs (probe h1 h2 v (capacity hs) a) with
    | occupied w =>
      by_cases hw : w = v
      · left; simp [insertFrom, hslot, hw]
      · simp only [insertFrom, hslot, if_neg hw]
        exact ih _
    | empty =>
      right
      exact ⟨probe h1 h2 v (capacity hs) a, probe_lt h1 h2 v a hc, hslot,
        by simp [insertFrom, hslot]⟩
    | tombstone =>
      simp only [insertFrom, hslot]
      exact ih _

theorem eraseFrom_cases (h1 h2 : α → Nat) (hs : HashSet α) (v : α) :
    ∀ fuel a, (eraseFrom h1 h2 hs v a fuel).2 = hs ∨
      ∃ p, slotAt hs p = Slot.occupied v ∧
        eraseFrom h1 h2 hs v a fuel =
          (true, ⟨hs.slots.set p Slot.tombstone, hs.size - 1⟩) := by
  intro fuel
  induction fuel with
  | zero => intro a; left; simp [eraseFrom]
  | succ f ih =>
    intro a
    cases hslot : slotAt hs (probe h1 h2 v (capacity hs) a) with
    | occupied w =>
      by_cases hw : w = v
      · right
        rw [hw] at hslot
        exact ⟨probe h1 h2 v (capacity hs) a, hslot,
          by simp [eraseFrom, hslot]⟩
      · simp only [eraseFrom, hslot, if_neg hw]
        exact ih _
    | empty => left; simp [eraseFrom, hslot]
    | tombstone =>
      simp only [eraseFrom, hslot]
      exact ih _

theorem sizeInv_insert (h1 h2 : α → Nat) (hs : HashSet α) (v : α)
    (hsz : SizeInv hs) : SizeInv (insert h1 h2 hs v).2 := by
  by_cases hc : 0 < capacity hs
  · rcases insertFrom_cases h1 h2 hs v hc (capacity hs) 0 with h | ⟨p, hp, he, heq⟩
    · rw [insert] at *; rw [h]; exact hsz
    · rw [insert] at *
      rw [heq]
      show hs.size + 1 = occupiedCount _
      rw [SizeInv] at hsz
      rw [occupiedCount] at *
      simp only
      rw [countP_set_occupied hs.slots p v (by simpa [capacity] using hp) he]
      omega
  · have hc0 : capacity hs = 0 := by omega
    rw [insert, hc0]
    simpa [insertFrom] using hsz

theorem sizeInv_erase (h1 h2 : α → Nat) (hs : HashSet α) (v : α)
    (hsz : SizeInv hs) : SizeInv (erase h1 h2 hs v).2 := by
  rcases eraseFrom_cases h1 h2 hs v (capacity hs) 0 with h | ⟨p, hp, heq⟩
  · rw [erase] at *; rw [h]; exact hsz
  · rw [erase] at *
    rw [heq]
    have hlt : p < hs.slots.length := by
      simpa [capacity] using slotAt_occupied_lt hs p v hp
    have hcnt := countP_set_tombstone hs.slots p v hlt hp
    have hpos := occupiedCount_pos hs p v hp
    show hs.size - 1 = occupiedCount _
    rw [SizeInv] at hsz
    rw [occupiedCount] at *
    simp only
    omega

theorem sizeInv_clear (hs : HashSet α) : SizeInv (clear hs) := by
  rw [SizeInv, clear, occupiedCount]
  simp only
  rw [Eq.comm, List.countP_eq_zero]
  intro s hsm
  rcases List.mem_map.mp hsm with ⟨_, _, rfl⟩
  simp [isOccupied]

theorem sizeInv_fresh (c : Nat) :
    SizeInv (⟨List.replicate c Slot.empty, 0⟩ : HashSet α) := by
  rw [SizeInv, occupiedCount]
  simp only
  rw [Eq.comm, List.countP_eq_zero]
  intro s hsm
  rw [List.eq_of_mem_replicate hsm]
  simp [isOccupied]

theorem sizeInv_reinsertAll (h1 h2 : α → Nat) :
    ∀ (L : List (Slot α)) (t t2 : HashSet α), SizeInv t →
      reinsertAll h1 h2 L t = Except.ok t2 → SizeInv t2 := by
  intro L
  induction L with
  | nil =>
    intro t t2 hsz h
    rw [reinsertAll] at h
    cases h
    exact hsz
  | cons s rest ih =>
    intro t t2 hsz h
    cases s with
    | occupied v =>
      rcases hres : insert h1 h2 t v with ⟨r, t3⟩
      have hs3 : SizeInv t3 := by
        have := sizeInv_insert h1 h2 t v hsz
        rwa [hres] at this
      cases r with
      | capacityExceeded => rw [reinsertAll, hres] at h; cases h
      | inserted =>
        rw [reinsertAll, hres] at h
        exact ih t3 t2 hs3 h
      | existed =>
        rw [reinsertAll, hres] at h
        exact ih t3 t2 hs3 h
    | empty =>
      rw [reinsertAll] at h
      exact ih t t2 hsz h
    | tombstone =>
      rw [reinsertAll] at h
      exact ih t t2 hsz h

theorem memberFrom_true_exists_occupied (h1 h2 : α → Nat) (hs : HashSet α)
    (v : α) :
    ∀ fuel a, memberFrom h1 h2 hs v a fuel = true →
      ∃ i, slotAt hs i = Slot.occupied v := by
  intro fuel
  induction fuel with
  | zero => intro a h; simp [memberFrom] at h
  | succ f ih =>
    intro a h
    cases hslot : slotAt hs (probe h1 h2 v (capacity hs) a) with
    | occupied w =>
      by_cases hw : w = v
      · rw [hw] at hslot
        exact ⟨probe h1 h2 v (capacity hs) a, hslot⟩
      · simp only [memberFrom, hslot, if_neg hw] at h
        exact ih _ h
    | empty => simp [memberFrom, hslot] at h
    | tombstone =>
      simp only [memberFrom, hslot] at h
      exact ih _ h

theorem memberFrom_set_occupied (h1 h2 : α → Nat) (hs : HashSet α)
    (p : Nat) (u v : α) (m : Nat) (hp : slotAt hs p = Slot.empty) :
    ∀ fuel a, memberFrom h1 h2 hs v a fuel = true →
      memberFrom h1 h2 (⟨hs.slots.set p (Slot.occupied u), m⟩ : HashSet α) v
        a fuel = true := by
  have hcap : capacity (⟨hs.slots.set p (Slot.occupied u), m⟩ : HashSet α) =
      capacity hs := by simp [capacity]
  intro fuel
  induction fuel with
  | zero => intro a h; simp [memberFrom] at h
  | succ f ih =>
    intro a h
    cases hslot : slotAt hs (probe h1 h2 v (capacity hs) a) with
    | occupied w =>
      have hip : probe h1 h2 v (capacity hs) a ≠ p := by
        intro he; rw [he, hp] at hslot; cases hslot
      have hnew : slotAt (⟨hs.slots.set p (Slot.occupied u), m⟩ : HashSet α)
          (probe h1 h2 v
            (capacity (⟨hs.slots.set p (Slot.occupied u), m⟩ : HashSet α))
            a) = Slot.occupied w := by
        rw [hcap]
        rw [show slotAt (⟨hs.slots.set p (Slot.occupied u), m⟩ : HashSet α)
            (probe h1 h2 v (capacity hs) a) =
            slotAt hs (probe h1 h2 v (capacity hs) a) from
          getD_set_ne _ _ _ (fun he => hip he.symm)]
        exact hslot
      by_cases hw : w = v
      · simp only [memberFrom, hnew, if_pos hw]
      · simp only [memberFrom, hslot, if_neg hw] at h
        simp only [memberFrom, hnew, if_neg hw]
        exact ih _ h
    | empty => simp [memberFrom, hslot] at h
    | tombstone =>
      have hip : probe h1 h2 v (capacity hs) a ≠ p := by
        intro he; rw [he, hp] at hslot; cases hslot
      have hnew : slotAt (⟨hs.slots.set p (Slot.occupied u), m⟩ : HashSet α)
          (probe h1 h2 v
            (capacity (⟨hs.slots.set p (Slot.occupied u), m⟩ : HashSet α))
            a) = Slot.tombstone := by
        rw [hcap]
        rw [show slotAt (⟨hs.slots.set p (Slot.occupied u), m⟩ : HashSet α)
            (probe h1 h2 v (capacity hs) a) =
            slotAt hs (probe h1 h2 v (capacity hs) a) from
          getD_set_ne _ _ _ (fun he => hip he.symm)]
        exact hslot
      simp only [memberFrom, hslot] at h
      simp only [memberFrom, hnew]
      exact ih _ h

theorem insertFrom_inserted_shape (h1 h2 : α → Nat) (hs : HashSet α) (v : α)
    (hc : 0 < capacity hs) :
    ∀ fuel a t2, insertFrom h1 h2 hs v a fuel = (InsRes.inserted, t2) →
      ∃ q, q < capacity hs ∧ slotAt hs q = Slot.empty ∧
        t2 = ⟨hs.slots.set q (Slot.occupied v), hs.size + 1⟩ := by
  intro fuel
  induction fuel with
  | zero => intro a t2 h; simp [insertFrom] at h
  | succ f ih =>
    intro a t2 h
    cases hslot : slotAt hs (probe h1 h2 v (capacity hs) a) with
    | occupied w =>
      by_cases hw : w = v
      · simp [insertFrom, hslot, hw] at h
      · simp only [insertFrom, hslot, if_neg hw] at h
        exact ih _ _ h
    | empty =>
      simp only [insertFrom, hslot, Prod.mk.injEq, true_and] at h
      exact ⟨probe h1 h2 v (capacity hs) a, probe_lt h1 h2 v a hc, hslot,
        h.symm⟩
    | tombstone =>
      simp only [insertFrom, hslot] at h
      exact ih _ _ h

theorem insertFrom_member_self (h1 h2 : α → Nat) (hs : HashSet α) (v : α)
    (hc : 0 < capacity hs) :
    ∀ fuel a t2, insertFrom h1 h2 hs v a fuel = (InsRes.inserted, t2) →
      memberFrom h1 h2 t2 v a fuel = true := by
  intro fuel
  induction fuel with
  | zero => intro a t2 h; simp [insertFrom] at h
  | succ f ih =>
    intro a t2 h
    rcases insertFrom_inserted_shape h1 h2 hs v hc (f + 1) a t2 h with
      ⟨q, hqlt, hqe, rfl⟩
    have hcap : capacity
        (⟨hs.slots.set q (Slot.occupied v), hs.size + 1⟩ : HashSet α) =
        capacity hs := by simp [capacity]
    cases hslot : slotAt hs (probe h1 h2 v (capacity hs) a) with
    | occupied w =>
      by_cases hw : w = v
      · simp [insertFrom, hslot, hw] at h
      · have hip : probe h1 h2 v (capacity hs) a ≠ q := by
          intro he; rw [he, hqe] at hslot; cases hslot
        have hnew : slotAt
            (⟨hs.slots.set q (Slot.occupied v), hs.size + 1⟩ : HashSet α)
            (probe h1 h2 v (capacity
              (⟨hs.slots.set q (Slot.occupied v), hs.size + 1⟩ :
                HashSet α)) a) = Slot.occupied w := by
          rw [hcap]
          rw [show slotAt
              (⟨hs.slots.set q (Slot.occupied v), hs.size + 1⟩ : HashSet α)
              (probe h1 h2 v (capacity hs) a) =
              slotAt hs (probe h1 h2 v (capacity hs) a) from
            getD_set_ne _ _ _ (fun he => hip he.symm)]
          exact hslot
        simp only [insertFrom, hslot, if_neg hw] at h
        simp only [memberFrom, hnew, if_neg hw]
        exact ih _ _ h
    | empty =>
      simp only [insertFrom, hslot, Prod.mk.injEq, true_and] at h
      have hq : probe h1 h2 v (capacity hs) a = q := by
        have := congrArg HashSet.slots h
        simp only at this
        by_contra hne
        have h2q := congrArg (fun l => l.getD q Slot.empty) this
        simp only at h2q
        rw [getD_set_ne _ _ _ hne] at h2q
        rw [getD_set_self _ _ _ _ (by simpa [capacity] using hqlt)] at h2q
        rw [show hs.slots.getD q Slot.empty = Slot.empty from hqe] at h2q
        cases h2q
      have hnew : slotAt
          (⟨hs.slots.set q (Slot.occupied v), hs.size + 1⟩ : HashSet α)
          (probe h1 h2 v (capacity
            (⟨hs.slots.set q (Slot.occupied v), hs.size + 1⟩ :
              HashSet α)) a) = Slot.occupied v := by
        rw [hcap, hq]
        exact getD_set_self _ _ _ _ (by simpa [capacity] using hqlt)
      simp [memberFrom, hnew]
    | tombstone =>
      have hip : probe h1 h2 v (capacity hs) a ≠ q := by
        intro he; rw [he, hqe] at hslot; cases hslot
      have hnew : slotAt
          (⟨hs.slots.set q (Slot.occupied v), hs.size + 1⟩ : HashSet α)
          (probe h1 h2 v (capacity
            (⟨hs.slots.set q (Slot.occupied v), hs.size + 1⟩ :
              HashSet α)) a) = Slot.tombstone := by
        rw [hcap]
        rw [show slotAt
            (⟨hs.slots.set q (Slot.occupied v), hs.size + 1⟩ : HashSet α)
            (probe h1 h2 v (capacity hs) a) =
            slotAt hs (probe h1 h2 v (capacity hs) a) from
          getD_set_ne _ _ _ (fun he => hip he.symm)]
        exact hslot
      simp only [insertFrom, hslot] at h
      simp only [memberFrom, hnew]
      exact ih _ _ h

theorem insertFrom_existed_found (h1 h2 : α → Nat) (hs : HashSet α) (v : α) :
    ∀ fuel a t2, insertFrom h1 h2 hs v a fuel = (InsRes.existed, t2) →
      ∃ i, slotAt hs i = Slot.occupied v := by
  intro fuel
  induction fuel with
  | zero => intro a t2 h; simp [insertFrom] at h
  | succ f ih =>
    intro a t2 h
    cases hslot : slotAt hs (probe h1 h2 v (capacity hs) a) with
    | occupied w =>
      by_cases hw : w = v
      · rw [hw] at hslot
        exact ⟨probe h1 h2 v (capacity hs) a, hslot⟩
      · simp only [insertFrom, hslot, if_neg hw] at h
        exact ih _ _ h
    | empty => simp [insertFrom, hslot] at h
    | tombstone =>
      simp only [insertFrom, hslot] at h
      exact ih _ _ h

theorem insertFrom_exceeded_no_empty (h1 h2 : α → Nat) (hs : HashSet α)
    (v : α) :
    ∀ fuel a t2,
      insertFrom h1 h2 hs v a fuel = (InsRes.capacityExceeded, t2) →
      ∀ k, a ≤ k → k < a + fuel →
        slotAt hs (probe h1 h2 v (capacity hs) k) ≠ Slot.empty := by
  intro fuel
  induction fuel with
  | zero => intro a t2 _ k hk1 hk2; omega
  | succ f ih =>
    intro a t2 h k hk1 hk2
    cases hslot : slotAt hs (probe h1 h2 v (capacity hs) a) with
    | occupied w =>
      by_cases hw : w = v
      · simp [insertFrom, hslot, hw] at h
      · simp only [insertFrom, hslot, if_neg hw] at h
        rcases Nat.eq_or_lt_of_le hk1 with rfl | hlt
        · rw [hslot]; simp
        · exact ih _ _ h k hlt (by omega)
    | empty => simp [insertFrom, hslot] at h
    | tombstone =>
      simp only [insertFrom, hslot] at h
      rcases Nat.eq_or_lt_of_le hk1 with rfl | hlt
      · rw [hslot]; simp
      · exact ih _ _ h k hlt (by omega)

theorem exists_empty_slot (hs : HashSet α)
    (hcnt : occupiedCount hs < capacity hs)
    (htmb : ∀ i, slotAt hs i ≠ Slot.tombstone) :
    ∃ i, i < capacity hs ∧ slotAt hs i = Slot.empty := by
  have hne : ¬ ∀ s ∈ hs.slots, isOccupied s = true := by
    intro hall
    have := List.countP_eq_length.mpr hall
    rw [occupiedCount, this] at hcnt
    exact absurd hcnt (by simp [capacity])
  push_neg at hne
  rcases hne with ⟨s, hsm, hso⟩
  rcases List.getElem_of_mem hsm with ⟨i, hilt, hie⟩
  have hslot : slotAt hs i = s := by
    rw [slotAt, List.getD_eq_getElem?_getD, List.getElem?_eq_getElem hilt,
      hie]
    rfl
  cases s with
  | occupied w => simp [isOccupied] at hso
  | empty => exact ⟨i, by simpa [capacity] using hilt, hslot⟩
  | tombstone => exact absurd hslot (htmb i)

theorem insert_succeeds (h1 h2 : α → Nat) (hs : HashSet α) (v : α)
    (hc : 0 < capacity hs)
    (hempty : ∃ i, i < capacity hs ∧ slotAt hs i = Slot.empty)
    (hnov : ∀ i, slotAt hs i ≠ Slot.occupied v) :
    ∃ t2, insert h1 h2 hs v = (InsRes.inserted, t2) := by
  rcases hres : insert h1 h2 hs v with ⟨r, t2⟩
  cases r with
  | inserted => exact ⟨t2, rfl⟩
  | existed =>
    rcases insertFrom_existed_found h1 h2 hs v (capacity hs) 0 t2 hres with
      ⟨i, hi⟩
    exact absurd hi (hnov i)
  | capacityExceeded =>
    rcases hempty with ⟨i, hilt, hie⟩
    rcases probe_surj h1 h2 v hc i hilt with ⟨a, halt, hpa⟩
    have := insertFrom_exceeded_no_empty h1 h2 hs v (capacity hs) 0 t2 hres
      a (Nat.zero_le a) (by omega)
    rw [hpa] at this
    exact absurd hie this

/-- Contents of the table after a successful insert: the new value plus
everything previously stored. -/
theorem set_occupied_contents (hs : HashSet α) (q : Nat) (v : α) (m : Nat)
    (hqlt : q < capacity hs) (hqe : slotAt hs q = Slot.empty) (w : α) :
    (∃ i, slotAt (⟨hs.slots.set q (Slot.occupied v), m⟩ : HashSet α) i =
        Slot.occupied w) ↔
      w = v ∨ ∃ i, slotAt hs i = Slot.occupied w := by
  constructor
  · rintro ⟨i, hi⟩
    by_cases hiq : i = q
    · subst hiq
      rw [show slotAt (⟨hs.slots.set i (Slot.occupied v), m⟩ : HashSet α) i =
          Slot.occupied v from
        getD_set_self _ _ _ _ (by simpa [capacity] using hqlt)] at hi
      left
      cases hi
      rfl
    · right
      refine ⟨i, ?_⟩
      rw [show slotAt (⟨hs.slots.set q (Slot.occupied v), m⟩ : HashSet α) i =
          slotAt hs i from getD_set_ne _ _ _ (fun he => hiq he.symm)] at hi
      exact hi
  · rintro (rfl | ⟨i, hi⟩)
    · refine ⟨q, ?_⟩
      exact getD_set_self _ _ _ _ (by simpa [capacity] using hqlt)
    · have hiq : i ≠ q := by
        intro he; rw [he, hqe] at hi; cases hi
      refine ⟨i, ?_⟩
      rw [show slotAt (⟨hs.slots.set q (Slot.occupied v), m⟩ : HashSet α) i =
          slotAt hs i from getD_set_ne _ _ _ (fun he => hiq he.symm)]
      exact hi

/-- The invariant carried through the Resize Engine's reinsertion pass:
after the values `done` have been reinserted into the fresh table `t`
of capacity `c`, the table holds exactly those values, one per slot,
with no tombstones, and each of them is a member. -/
def ResizeInv (h1 h2 : α → Nat) (c : Nat) (done : List α)
    (t : HashSet α) : Prop :=
  capacity t = c ∧ t.size = done.length ∧ occupiedCount t = done.length ∧
  (∀ i, slotAt t i ≠ Slot.tombstone) ∧
  (∀ w, (∃ i, slotAt t i = Slot.occupied w) ↔ w ∈ done) ∧
  (∀ w, w ∈ done → member h1 h2 t w = true)

theorem resizeInv_insert (h1 h2 : α → Nat) (c : Nat) (done : List α)
    (t : HashSet α) (v : α) (hinv : ResizeInv h1 h2 c done t)
    (hnd : v ∉ done) (hlen : done.length < c) (hc : 0 < c) :
    ∃ t2, insert h1 h2 t v = (InsRes.inserted, t2) ∧
      ResizeInv h1 h2 c (done ++ [v]) t2 := by
  rcases hinv with ⟨hcap, hsz, hcnt, htmb, hcont, hmem⟩
  have hc' : 0 < capacity t := by omega
  have hnov : ∀ i, slotAt t i ≠ Slot.occupied v := by
    intro i hi
    exact hnd ((hcont v).mp ⟨i, hi⟩)
  have hempty : ∃ i, i < capacity t ∧ slotAt t i = Slot.empty :=
    exists_empty_slot t (by omega) htmb
  rcases insert_succeeds h1 h2 t v hc' hempty hnov with ⟨t2, hins⟩
  rcases insertFrom_inserted_shape h1 h2 t v hc' (capacity t) 0 t2 hins with
    ⟨q, hqlt, hqe, rfl⟩
  refine ⟨_, hins, ?_, ?_, ?_, ?_, ?_, ?_⟩
  · simpa [capacity]
  · simp [hsz]
  · show List.countP isOccupied _ = _
    rw [countP_set_occupied t.slots q v (by simpa [capacity] using hqlt) hqe]
    rw [occupiedCount] at hcnt
    simp [hcnt]
  · intro i
    by_cases hiq : i = q
    · subst hiq
      rw [show slotAt (⟨t.slots.set i (Slot.occupied v), t.size + 1⟩ :
          HashSet α) i = Slot.occupied v from
        getD_set_self _ _ _ _ (by simpa [capacity] using hqlt)]
      simp
    · rw [show slotAt (⟨t.slots.set q (Slot.occupied v), t.size + 1⟩ :
          HashSet α) i = slotAt t i from
        getD_set_ne _ _ _ (fun he => hiq he.symm)]
      exact htmb i
  · intro w
    rw [set_occupied_contents t q v _ hqlt hqe w]
    rw [hcont w]
    simp [Or.comm]
  · intro w hw
    rcases List.mem_append.mp hw with hwd | hwv
    · have := hmem w hwd
      rw [member] at this
      have h2m := memberFrom_set_occupied h1 h2 t q v w (t.size + 1) hqe
        (capacity t) 0 this
      rw [member]
      rw [show capacity (⟨t.slots.set q (Slot.occupied v), t.size + 1⟩ :
          HashSet α) = capacity t from by simp [capacity]]
      exact h2m
    · rw [List.mem_singleton] at hwv
      subst hwv
      have := insertFrom_member_self h1 h2 t w hc' (capacity t) 0 _ hins
      rw [member]
      rw [show capacity (⟨t.slots.set q (Slot.occupied w), t.size + 1⟩ :
          HashSet α) = capacity t from by simp [capacity]]
      exact this

theorem reinsertAll_inv (h1 h2 : α → Nat) (c : Nat) (hc : 0 < c) :
    ∀ (L : List (Slot α)) (t : HashSet α) (done : List α),
      ResizeInv h1 h2 c done t →
      (done ++ liveOf L).Nodup →
      (done ++ liveOf L).length ≤ c →
      ∃ t2, reinsertAll h1 h2 L t = Except.ok t2 ∧
        ResizeInv h1 h2 c (done ++ liveOf L) t2 := by
  intro L
  induction L with
  | nil =>
    intro t done hinv hnd hlen
    refine ⟨t, by rw [reinsertAll], ?_⟩
    simpa [liveOf] using hinv
  | cons s rest ih =>
    intro t done hinv hnd hlen
    cases s with
    | occupied v =>
      have hlive : liveOf (Slot.occupied v :: rest) = v :: liveOf rest := by
        simp [liveOf]
      rw [hlive] at hnd hlen ⊢
      have hassoc : done ++ v :: liveOf rest =
          (done ++ [v]) ++ liveOf rest := by simp
      have hvnd : v ∉ done := by
        intro hv
        rcases List.nodup_append.mp hnd with ⟨_, _, hdisj⟩
        exact hdisj hv (by simp)
      have hdlen : done.length < c := by
        have := hlen
        simp only [List.length_append, List.length_cons] at this
        omega
      rcases resizeInv_insert h1 h2 c done t v hinv hvnd hdlen hc with
        ⟨t2, hins, hinv2⟩
      rw [hassoc] at hnd hlen ⊢
      rcases ih t2 (done ++ [v]) hinv2 hnd hlen with ⟨t3, hrec, hinv3⟩
      exact ⟨t3, by rw [reinsertAll, hins]; exact hrec, hinv3⟩
    | empty =>
      have hlive : liveOf (Slot.empty :: rest) = liveOf rest := by
        simp [liveOf]
      rw [hlive] at hnd hlen ⊢
      rcases ih t done hinv hnd hlen with ⟨t3, hrec, hinv3⟩
      exact ⟨t3, by rw [reinsertAll]; exact hrec, hinv3⟩
    | tombstone =>
      have hlive : liveOf (Slot.tombstone :: rest) = liveOf rest := by
        simp [liveOf]
      rw [hlive] at hnd hlen ⊢
      rcases ih t done hinv hnd hlen with ⟨t3, hrec, hinv3⟩
      exact ⟨t3, by rw [reinsertAll]; exact hrec, hinv3⟩

theorem resizeInv_fresh (h1 h2 : α → Nat) (c : Nat) :
    ResizeInv h1 h2 c []
      (⟨List.replicate c Slot.empty, 0⟩ : HashSet α) := by
  have hslot : ∀ i, slotAt
      (⟨List.replicate c Slot.empty, 0⟩ : HashSet α) i = Slot.empty := by
    intro i
    rw [slotAt, List.getD_eq_getElem?_getD]
    simp only
    rw [List.getElem?_replicate]
    by_cases hi : i < c <;> simp [hi]
  refine ⟨by simp [capacity], by simp, ?_, ?_, ?_, by simp⟩
  · show List.countP isOccupied _ = 0
    rw [List.countP_eq_zero]
    intro s hsm
    rw [List.eq_of_mem_replicate hsm]
    simp [isOccupied]
  · intro i
    rw [hslot i]
    simp
  · intro w
    constructor
    · rintro ⟨i, hi⟩
      rw [hslot i] at hi
      cases hi
    · intro h
      simp at h

/-- C5 (amended with `c ≥ 1`, as required by the spec's
`InvalidConfiguration` rule for zero capacity): for a set with live
value set V and any new capacity `c ≥ |V|` with `c ≥ 1`, `resize(c)`
succeeds and produces a set of capacity `c` holding exactly the live
values — `size()` equals `|V|`, `member(v)` is true exactly for `v ∈
V`, and no tombstone is carried into the new table.  The live values
are assumed pairwise distinct (set semantics of the source table). -/
theorem resize_preserves_contents (h1 h2 : α → Nat) (hs : HashSet α)
    (c : Nat) (hnd : (liveValues hs).Nodup)
    (hle : (liveValues hs).length ≤ c) (hc : 1 ≤ c) :
    ∃ hs2, resize h1 h2 hs c = Except.ok hs2 ∧
      capacity hs2 = c ∧ hs2.size = (liveValues hs).length ∧
      (∀ i, slotAt hs2 i ≠ Slot.tombstone) ∧
      (∀ v, member h1 h2 hs2 v = true ↔ v ∈ liveValues hs) := by
  have hc0 : c ≠ 0 := by omega
  rcases reinsertAll_inv h1 h2 c (by omega) hs.slots
      (⟨List.replicate c Slot.empty, 0⟩ : HashSet α) []
      (resizeInv_fresh h1 h2 c) (by simpa [liveValues] using hnd)
      (by simpa [liveValues] using hle) with ⟨t2, hrec, hinv⟩
  rcases hinv with ⟨hcap, hsz, _, htmb, hcont, hmem⟩
  refine ⟨t2, ?_, hcap, ?_, htmb, ?_⟩
  · rw [resize, if_neg hc0]
    exact hrec
  · simpa [liveValues] using hsz
  · intro v
    constructor
    · intro h
      rcases memberFrom_true_exists_occupied h1 h2 t2 v (capacity t2) 0 h
        with ⟨i, hi⟩
      have := (hcont v).mp ⟨i, hi⟩
      simpa [liveValues] using this
    · intro h
      exact hmem v (by simpa [liveValues] using h)

theorem resize_preserves_contents_witness :
    Except.map capacity
        (resize id id
          (⟨[Slot.occupied 1, Slot.occupied 2, Slot.empty, Slot.tombstone],
            2⟩ : HashSet Nat) 3) = Except.ok 3 ∧
    Except.map (fun t => member id id t 1)
        (resize id id
          (⟨[Slot.occupied 1, Slot.occupied 2, Slot.empty, Slot.tombstone],
            2⟩ : HashSet Nat) 3) = Except.ok true := by
  rcases resize_preserves_contents id id
      (⟨[Slot.occupied 1, Slot.occupied 2, Slot.empty, Slot.tombstone], 2⟩ :
        HashSet Nat) 3 (by decide) (by decide) (by decide) with
    ⟨hs2, heq, hcap, hsz, htmb, hmem⟩
  rw [heq]
  constructor
  · simp only [Except.map]
    rw [hcap]
  · simp only [Except.map]
    rw [(hmem 1).mpr (by decide)]

/-- C5 as literally stated fails at `c = 0`: a table with no live
values and new capacity `0 ≥ |V| = 0` does not resize to a capacity-0
table; the spec's `InvalidConfiguration` error for zero capacity is
raised instead. -/
theorem resize_zero_counterexample :
    ¬ ∃ hs2, resize id id (⟨[Slot.empty], 0⟩ : HashSet Nat) 0 =
        Except.ok hs2 := by
  rintro ⟨hs2, h⟩
  rw [resize] at h
  simp at h

/-- Modelled from the spec: the states reachable from construction by
any sequence of insert, erase, clear and resize operations (spec §3
"Lifecycle"). -/
inductive Reachable (h1 h2 : α → Nat) : HashSet α → Prop where
| init (c : Nat) (hs : HashSet α) :
    mkSet c = Except.ok hs → Reachable h1 h2 hs
| ins (hs : HashSet α) (v : α) :
    Reachable h1 h2 hs → Reachable h1 h2 (insert h1 h2 hs v).2
| ers (hs : HashSet α) (v : α) :
    Reachable h1 h2 hs → Reachable h1 h2 (erase h1 h2 hs v).2
| clr (hs : HashSet α) : Reachable h1 h2 hs → Reachable h1 h2 (clear hs)
| rsz (hs : HashSet α) (c : Nat) (hs2 : HashSet α) :
    Reachable h1 h2 hs → resize h1 h2 hs c = Except.ok hs2 →
    Reachable h1 h2 hs2

theorem reachable_sizeInv (h1 h2 : α → Nat) (hs : HashSet α)
    (h : Reachable h1 h2 hs) : SizeInv hs := by
  induction h with
  | init c hs0 hmk =>
    rw [mkSet] at hmk
    by_cases hc : c = 0
    · rw [if_pos hc] at hmk; cases hmk
    · rw [if_neg hc] at hmk
      cases hmk
      exact sizeInv_fresh c
  | ins hs0 v _ ih => exact sizeInv_insert h1 h2 hs0 v ih
  | ers hs0 v _ ih => exact sizeInv_erase h1 h2 hs0 v ih
  | clr hs0 _ _ => exact sizeInv_clear hs0
  | rsz hs0 c hs2 _ hrs _ =>
    rw [resize] at hrs
    by_cases hc : c = 0
    · rw [if_pos hc] at hrs; cases hrs
    · rw [if_neg hc] at hrs
      exact sizeInv_reinsertAll h1 h2 hs0.slots _ hs2 (sizeInv_fresh c) hrs

/-- C6: every hash set reachable from construction by any sequence of
insert, erase, clear and resize operations satisfies the invariant
`size ≤ capacity` — `size` always equals the number of occupied slots,
which cannot exceed the number of slots. -/
theorem size_le_capacity (h1 h2 : α → Nat) (hs : HashSet α)
    (h : Reachable h1 h2 hs) : hs.size ≤ capacity hs := by
  rw [reachable_sizeInv h1 h2 hs h]
  exact List.countP_le_length _

theorem size_le_capacity_witness :
    ((insert id id (⟨List.replicate 4 Slot.empty, 0⟩ : HashSet Nat) 1).2).size ≤
      capacity ((insert id id
        (⟨List.replicate 4 Slot.empty, 0⟩ : HashSet Nat) 1).2) :=
  size_le_capacity id id _
    (Reachable.ins _ 1 (Reachable.init 4 _ rfl))

/-- Modelled from the spec: a mutating operation applied to one hash
set instance — insert, erase, clear, or resize (a failed resize leaves
the instance unchanged, spec §7: no side effects on failure). -/
inductive HOp (α : Type) where
| ins (v : α) : HOp α
| ers (v : α) : HOp α
| clr : HOp α
| rsz (c : Nat) : HOp α

/-- The state transition of a single mutating operation. -/
def applyOp (h1 h2 : α → Nat) : HOp α → HashSet α → HashSet α
| HOp.ins v, t => (insert h1 h2 t v).2
| HOp.ers v, t => (erase h1 h2 t v).2
| HOp.clr, t => clear t
| HOp.rsz c, t =>
  match resize h1 h2 t c with
  | Except.ok t2 => t2
  | Except.error _ => t

/-- Modelled from the spec: to express aliasing (deep copy versus
shared backing array, spec §3 "Ownership", §4.3), hash set instances
live in a store — a list of independently owned instances addressed by
index. -/
def getHS (st : List (HashSet α)) (i : Nat) : HashSet α :=
  st.getD i ⟨[], 0⟩

/-- Modelled from the spec: copy construction `b(a)` allocates a fresh
independent instance that is a structural clone of `a` (spec §4.3);
the result is the new store and the new instance's index. -/
def copyCtor (st : List (HashSet α)) (a : Nat) :
    List (HashSet α) × Nat :=
  (st ++ [getHS st a], st.length)

/-- Modelled from the spec: assignment `b = a` replaces `b`'s backing
array by an independent clone of `a`'s (spec §4.3). -/
def assignHS (st : List (HashSet α)) (b a : Nat) : List (HashSet α) :=
  st.set b (getHS st a)

/-- Applying a mutating operation to the instance at index `i` of the
store. -/
def mutateAt (h1 h2 : α → Nat) (st : List (HashSet α)) (i : Nat)
    (op : HOp α) : List (HashSet α) :=
  st.set i (applyOp h1 h2 op (getHS st i))

theorem getHS_append_self (st : List (HashSet α)) (x : HashSet α) :
    getHS (st ++ [x]) st.length = x := by
  rw [getHS, List.getD_eq_getElem?_getD]
  rw [List.getElem?_append_right (Nat.le_refl _)]
  simp

theorem getHS_append_lt (st : List (HashSet α)) (x : HashSet α) (i : Nat)
    (hi : i < st.length) : getHS (st ++ [x]) i = getHS st i := by
  rw [getHS, getHS, List.getD_eq_getElem?_getD, List.getD_eq_getElem?_getD,
    List.getElem?_append_left hi]

theorem getHS_mutateAt_ne (h1 h2 : α → Nat) (st : List (HashSet α))
    (i j : Nat) (op : HOp α) (hij : i ≠ j) :
    getHS (mutateAt h1 h2 st i op) j = getHS st j := by
  simp [mutateAt, getHS, List.getD_eq_getElem?_getD,
    List.getElem?_set_ne hij]

theorem getHS_assign_ne (st : List (HashSet α)) (b a j : Nat)
    (hbj : b ≠ j) : getHS (assignHS st b a) j = getHS st j := by
  simp [assignHS, getHS, List.getD_eq_getElem?_getD,
    List.getElem?_set_ne hbj]

theorem getHS_assign_self (st : List (HashSet α)) (b a : Nat)
    (hb : b < st.length) : getHS (assignHS st b a) b = getHS st a := by
  rw [assignHS, getHS, List.getD_eq_getElem?_getD,
    List.getElem?_set_self hb]
  rfl

/-- C7: copy construction and assignment produce deep, independent
copies.  After `b` is copy-constructed from `a`, and likewise after the
assignment `b = a`, instance `b` has the same capacity, size, and
membership results as `a`; and after either copy construction or
assignment, every subsequent insert, erase, clear, or resize applied to
one of the two instances leaves the other instance's capacity, size,
and membership results unchanged. -/
theorem copy_independence (h1 h2 : α → Nat) (st : List (HashSet α))
    (a b : Nat) (ha : a < st.length) (hb : b < st.length) (hab : a ≠ b) :
    (capacity (getHS (copyCtor st a).1 (copyCtor st a).2) =
        capacity (getHS (copyCtor st a).1 a) ∧
      (getHS (copyCtor st a).1 (copyCtor st a).2).size =
        (getHS (copyCtor st a).1 a).size ∧
      (∀ v, member h1 h2 (getHS (copyCtor st a).1 (copyCtor st a).2) v =
        member h1 h2 (getHS (copyCtor st a).1 a) v)) ∧
    (∀ op, getHS (mutateAt h1 h2 (copyCtor st a).1 a op)
        (copyCtor st a).2 = getHS (copyCtor st a).1 (copyCtor st a).2) ∧
    (∀ op, getHS (mutateAt h1 h2 (copyCtor st a).1 (copyCtor st a).2 op) a =
      getHS (copyCtor st a).1 a) ∧
    (capacity (getHS (assignHS st b a) b) =
        capacity (getHS (assignHS st b a) a) ∧
      (getHS (assignHS st b a) b).size =
        (getHS (assignHS st b a) a).size ∧
      (∀ v, member h1 h2 (getHS (assignHS st b a) b) v =
        member h1 h2 (getHS (assignHS st b a) a) v)) ∧
    (∀ op, getHS (mutateAt h1 h2 (assignHS st b a) a op) b =
      getHS (assignHS st b a) b) ∧
    (∀ op, getHS (mutateAt h1 h2 (assignHS st b a) b op) a =
      getHS (assignHS st b a) a) := by
  have hget : getHS (copyCtor st a).1 (copyCtor st a).2 =
      getHS (copyCtor st a).1 a := by
    show getHS (st ++ [getHS st a]) st.length = getHS (st ++ [getHS st a]) a
    rw [getHS_append_self, getHS_append_lt st _ a ha]
  have hane : a ≠ (copyCtor st a).2 := by
    show a ≠ st.length
    omega
  have hgeta : getHS (assignHS st b a) a = getHS st a :=
    getHS_assign_ne st b a a (fun h => hab h.symm)
  have hgetb : getHS (assignHS st b a) b = getHS st a :=
    getHS_assign_self st b a hb
  refine ⟨⟨by rw [hget], by rw [hget], fun v => by rw [hget]⟩,
    fun op => ?_, fun op => ?_,
    ⟨by rw [hgeta, hgetb], by rw [hgeta, hgetb],
      fun v => by rw [hgeta, hgetb]⟩,
    fun op => ?_, fun op => ?_⟩
  · exact getHS_mutateAt_ne h1 h2 _ a (copyCtor st a).2 op hane
  · exact getHS_mutateAt_ne h1 h2 _ (copyCtor st a).2 a op
      (fun h => hane h.symm)
  · exact getHS_mutateAt_ne h1 h2 _ a b op hab
  · exact getHS_mutateAt_ne h1 h2 _ b a op (fun h => hab h.symm)

theorem copy_independence_witness :
    member id id
        (getHS
          (mutateAt id id
            (copyCtor
              [(⟨[Slot.occupied 7, Slot.empty], 1⟩ : HashSet Nat),
                ⟨[Slot.empty, Slot.empty], 0⟩] 0).1
            0 (HOp.ins 5))
          (copyCtor
            [(⟨[Slot.occupied 7, Slot.empty], 1⟩ : HashSet Nat),
              ⟨[Slot.empty, Slot.empty], 0⟩] 0).2) 7 =
      member id id
        (getHS
          (copyCtor
            [(⟨[Slot.occupied 7, Slot.empty], 1⟩ : HashSet Nat),
              ⟨[Slot.empty, Slot.empty], 0⟩] 0).1 0) 7 := by
  have h := copy_independence id id
    [(⟨[Slot.occupied 7, Slot.empty], 1⟩ : HashSet Nat),
      ⟨[Slot.empty, Slot.empty], 0⟩] 0 1 (by decide) (by decide)
    (by decide)
  rw [h.2.1 (HOp.ins 5), h.1.2.2 7]

end XmtHashSet

/-- The single `init` call issued by a graph generator: the vertex
count, the edge count, and the list of writes `(eid, src, dest)` into
the two parallel edge arrays `srcs`/`dests`, in program order
(`generate_mesh_graph.hpp`). -/
structure InitCall where
  num_verts : Nat
  num_edges : Nat
  writes : List (Nat × Nat × Nat)

/-- The edge count of the mesh generator for `numSCC = 0`
(`generate_mesh_graph.hpp` lines 102-103). -/
def meshNumEdges (numX numY numZ : Nat) : Nat :=
  ((numX - 1) * numY + numX * (numY - 1)) * numZ +
    numX * numY * (numZ - 1)

/-- The edge writes of the mesh generator's first loop nest
(`generate_mesh_graph.hpp` lines 118-147): for `zi < numZ`,
`xi < numX`, `yi < numY - 1`, write edge
`eid = yi + xi*(numY-1) + zi*numX*(numY-1)` from
`src = xi + zi*numX*numY + yi*numX` to `tgt = src + numX`. -/
def meshLoop1 (numX numY numZ : Nat) : List (Nat × Nat × Nat) :=
  (List.range numZ).flatMap fun zi =>
    (List.range numX).flatMap fun xi =>
      (List.range (numY - 1)).map fun yi =>
        (yi + xi * (numY - 1) + zi * numX * (numY - 1),
          xi + zi * numX * numY + yi * numX,
          xi + zi * numX * numY + yi * numX + numX)

/-- The edge writes of the mesh generator's second loop nest
(`generate_mesh_graph.hpp` lines 153-183): for `zi < numZ`,
`yi < numY`, `xi < numX - 1`, write edge
`eid = numX*numZ*(numY-1) + xi + yi*(numX-1) + zi*numY*(numX-1)` from
`src = xi + yi*numX + zi*numX*numY` to `tgt = src + 1`. -/
def meshLoop2 (numX numY numZ : Nat) : List (Nat × Nat × Nat) :=
  (List.range numZ).flatMap fun zi =>
    (List.range numY).flatMap fun yi =>
      (List.range (numX - 1)).map fun xi =>
        (numX * numZ * (numY - 1) +
            (xi + yi * (numX - 1) + zi * numY * (numX - 1)),
          xi + yi * numX + zi * numX * numY,
          xi + yi * numX + zi * numX * numY + 1)

/-- The edge writes of the mesh generator's third loop nest
(`generate_mesh_graph.hpp` lines 189-221): for `zi < numZ - 1`,
`yi < numY`, `xi < numX`, write edge
`eid = numX*numZ*(numY-1) + numZ*numY*(numX-1) + xi + yi*numX +
zi*numX*numY` from `src = zi*(numX*numY) + yi*numX + xi` to
`tgt = src + numX*numY`. -/
def meshLoop3 (numX numY numZ : Nat) : List (Nat × Nat × Nat) :=
  (List.range (numZ - 1)).flatMap fun zi =>
    (List.range numY).flatMap fun yi =>
      (List.range numX).map fun xi =>
        (numX * numZ * (numY - 1) + numZ * numY * (numX - 1) +
            (xi + yi * numX + zi * numX * numY),
          zi * (numX * numY) + yi * numX + xi,
          zi * (numX * numY) + yi * numX + xi + numX * numY)

/-- All edge writes of the mesh generator for `numSCC = 0` (the SCC
loop at lines 234-247 performs no writes then). -/
def meshWrites (numX numY numZ : Nat) : List (Nat × Nat × Nat) :=
  meshLoop1 numX numY numZ ++ meshLoop2 numX numY numZ ++
    meshLoop3 numX numY numZ

/-- The generator `generate_mesh_graph(g, numX, numY, numZ, 0)` from
`generate_mesh_graph.hpp`, specialised to `numSCC = 0`: for a zero
dimension or an all-ones mesh the degenerate single-vertex `init` call
is issued (lines 58-75); otherwise the three loop nests fill the edge
arrays and `init(num_verts, num_edges, srcs, dests, g)` is called
exactly once (line 249). -/
def generate_mesh_graph (numX numY numZ : Nat) : InitCall :=
  if numX = 0 ∨ numY = 0 ∨ numZ = 0 ∨
      (numX = 1 ∧ numY = 1 ∧ numZ = 1) then
    ⟨1, 0, [(0, 0, 0)]⟩
  else
    ⟨numX * numY * numZ, meshNumEdges numX numY numZ,
      meshWrites numX numY numZ⟩

theorem flatMap_congr_left {A B : Type} (l : List A) (f g : A → List B)
    (h : ∀ a ∈ l, f a = g a) : l.flatMap f = l.flatMap g := by
  show (l.map f).flatten = (l.map g).flatten
  rw [List.map_congr_left h]

theorem range_flatMap_block (n k : Nat) :
    ∀ m, ((List.range m).flatMap fun b =>
        (List.range n).map fun x => x + b * n + k) =
      (List.range (n * m)).map fun x => x + k := by
  intro m
  induction m with
  | zero => simp
  | succ m ih =>
    rw [List.range_succ, List.flatMap_append, ih, Nat.mul_succ,
      List.range_add, List.map_append]
    congr 1
    rw [show (([m] : List Nat).flatMap fun b =>
        (List.range n).map fun x => x + b * n + k) =
        (List.range n).map fun x => x + m * n + k from by simp]
    rw [List.map_map]
    apply List.map_congr_left
    intro x _
    simp only [Function.comp]
    ring

theorem range_flatMap_block0 (n m : Nat) :
    ((List.range m).flatMap fun b =>
        (List.range n).map fun x => x + b * n) =
      List.range (n * m) := by
  have h := range_flatMap_block n 0 m
  simpa using h

theorem meshLoop1_fst (X Y Z : Nat) :
    (meshLoop1 X Y Z).map (fun w => w.1) =
      List.range ((Y - 1) * X * Z) := by
  rw [meshLoop1]
  simp only [List.map_flatMap, List.map_map]
  have hin : ∀ zi : Nat, ((List.range X).flatMap fun xi =>
      (List.range (Y - 1)).map
        ((fun w : Nat × Nat × Nat => w.1) ∘ fun yi =>
          (yi + xi * (Y - 1) + zi * X * (Y - 1),
            xi + zi * X * Y + yi * X,
            xi + zi * X * Y + yi * X + X))) =
      (List.range ((Y - 1) * X)).map
        (fun x => x + zi * ((Y - 1) * X)) := by
    intro zi
    rw [show (fun xi => (List.range (Y - 1)).map
        ((fun w : Nat × Nat × Nat => w.1) ∘ fun yi =>
          (yi + xi * (Y - 1) + zi * X * (Y - 1),
            xi + zi * X * Y + yi * X,
            xi + zi * X * Y + yi * X + X))) =
        (fun xi => (List.range (Y - 1)).map
          (fun yi => yi + xi * (Y - 1) + zi * X * (Y - 1))) from by
      funext xi
      apply List.map_congr_left
      intro x _
      simp [Function.comp]]
    rw [range_flatMap_block (Y - 1) (zi * X * (Y - 1)) X]
    apply List.map_congr_left
    intro x _
    ring
  rw [flatMap_congr_left _ _ _ (fun zi _ => hin zi)]
  exact range_flatMap_block0 ((Y - 1) * X) Z

theorem meshLoop2_fst (X Y Z : Nat) :
    (meshLoop2 X Y Z).map (fun w => w.1) =
      (List.range ((X - 1) * Y * Z)).map
        (fun x => x + X * Z * (Y - 1)) := by
  rw [meshLoop2]
  simp only [List.map_flatMap, List.map_map]
  have hin : ∀ zi : Nat, ((List.range Y).flatMap fun yi =>
      (List.range (X - 1)).map
        ((fun w : Nat × Nat × Nat => w.1) ∘ fun xi =>
          (X * Z * (Y - 1) + (xi + yi * (X - 1) + zi * Y * (X - 1)),
            xi + yi * X + zi * X * Y,
            xi + yi * X + zi * X * Y + 1))) =
      (List.range ((X - 1) * Y)).map
        (fun x => x + zi * ((X - 1) * Y) + X * Z * (Y - 1)) := by
    intro zi
    rw [show (fun yi => (List.range (X - 1)).map
        ((fun w : Nat × Nat × Nat => w.1) ∘ fun xi =>
          (X * Z * (Y - 1) + (xi + yi * (X - 1) + zi * Y * (X - 1)),
            xi + yi * X + zi * X * Y,
            xi + yi * X + zi * X * Y + 1))) =
        (fun yi => (List.range (X - 1)).map
          (fun xi => xi + yi * (X - 1) +
            (zi * Y * (X - 1) + X * Z * (Y - 1)))) from by
      funext yi
      apply List.map_congr_left
      intro x _
      simp only [Function.comp]
      ring]
    rw [range_flatMap_block (X - 1) (zi * Y * (X - 1) + X * Z * (Y - 1)) Y]
    apply List.map_congr_left
    intro x _
    ring
  rw [flatMap_congr_left _ _ _ (fun zi _ => hin zi)]
  rw [range_flatMap_block ((X - 1) * Y) (X * Z * (Y - 1)) Z]

theorem meshLoop3_fst (X Y Z : Nat) :
    (meshLoop3 X Y Z).map (fun w => w.1) =
      (List.range (X * Y * (Z - 1))).map
        (fun x => x + (X * Z * (Y - 1) + Z * Y * (X - 1))) := by
  rw [meshLoop3]
  simp only [List.map_flatMap, List.map_map]
  have hin : ∀ zi : Nat, ((List.range Y).flatMap fun yi =>
      (List.range X).map
        ((fun w : Nat × Nat × Nat => w.1) ∘ fun xi =>
          (X * Z * (Y - 1) + Z * Y * (X - 1) +
              (xi + yi * X + zi * X * Y),
            zi * (X * Y) + yi * X + xi,
            zi * (X * Y) + yi * X + xi + X * Y))) =
      (List.range (X * Y)).map
        (fun x => x + zi * (X * Y) +
          (X * Z * (Y - 1) + Z * Y * (X - 1))) := by
    intro zi
    rw [show (fun yi => (List.range X).map
        ((fun w : Nat × Nat × Nat => w.1) ∘ fun xi =>
          (X * Z * (Y - 1) + Z * Y * (X - 1) +
              (xi + yi * X + zi * X * Y),
            zi * (X * Y) + yi * X + xi,
            zi * (X * Y) + yi * X + xi + X * Y))) =
        (fun yi => (List.range X).map
          (fun xi => xi + yi * X +
            (zi * X * Y + (X * Z * (Y - 1) + Z * Y * (X - 1))))) from by
      funext yi
      apply List.map_congr_left
      intro x _
      simp only [Function.comp]
      ring]
    rw [range_flatMap_block X
      (zi * X * Y + (X * Z * (Y - 1) + Z * Y * (X - 1))) Y]
    apply List.map_congr_left
    intro x _
    ring
  rw [flatMap_congr_left _ _ _ (fun zi _ => hin zi)]
  rw [range_flatMap_block (X * Y) (X * Z * (Y - 1) + Z * Y * (X - 1))
    (Z - 1)]

theorem meshWrites_fst (X Y Z : Nat) :
    (meshWrites X Y Z).map (fun w => w.1) =
      List.range (meshNumEdges X Y Z) := by
  rw [meshWrites, List.map_append, List.map_append, meshLoop1_fst,
    meshLoop2_fst, meshLoop3_fst]
  rw [show meshNumEdges X Y Z =
      X * Z * (Y - 1) + (X - 1) * Y * Z + X * Y * (Z - 1) from by
    rw [meshNumEdges]; ring]
  rw [List.range_add, List.range_add]
  congr 1
  · congr 1
    · rw [show (Y - 1) * X * Z = X * Z * (Y - 1) from by ring]
    · apply List.map_congr_left
      intro x _
      ring
  · apply List.map_congr_left
    intro x _
    ring

theorem meshWrites_bounds (X Y Z : Nat) :
    ∀ w ∈ meshWrites X Y Z, w.2.1 < X * Y * Z ∧ w.2.2 < X * Y * Z := by
  intro w hw
  rw [meshWrites] at hw
  rcases List.mem_append.mp hw with hw2 | hw3
  rcases List.mem_append.mp hw2 with hw1 | hw2
  · rw [meshLoop1] at hw1
    simp only [List.mem_flatMap, List.mem_map, List.mem_range] at hw1
    rcases hw1 with ⟨zi, hzi, xi, hxi, yi, hyi, rfl⟩
    obtain ⟨x1, rfl⟩ : ∃ x1, X = x1 + 1 := ⟨X - 1, by omega⟩
    obtain ⟨y1, rfl⟩ : ∃ y1, Y = y1 + 2 := ⟨Y - 2, by omega⟩
    obtain ⟨z1, rfl⟩ : ∃ z1, Z = z1 + 1 := ⟨Z - 1, by omega⟩
    have hx : xi ≤ x1 := by omega
    have hy : yi ≤ y1 := by omega
    have hz : zi ≤ z1 := by omega
    constructor <;>
    · simp only
      nlinarith [Nat.mul_le_mul_right (x1 + 1) hy,
        Nat.mul_le_mul_right ((x1 + 1) * (y1 + 2)) hz]
  · rw [meshLoop2] at hw2
    simp only [List.mem_flatMap, List.mem_map, List.mem_range] at hw2
    rcases hw2 with ⟨zi, hzi, yi, hyi, xi, hxi, rfl⟩
    obtain ⟨x1, rfl⟩ : ∃ x1, X = x1 + 2 := ⟨X - 2, by omega⟩
    obtain ⟨y1, rfl⟩ : ∃ y1, Y = y1 + 1 := ⟨Y - 1, by omega⟩
    obtain ⟨z1, rfl⟩ : ∃ z1, Z = z1 + 1 := ⟨Z - 1, by omega⟩
    have hx : xi ≤ x1 := by omega
    have hy : yi ≤ y1 := by omega
    have hz : zi ≤ z1 := by omega
    constructor <;>
    · simp only
      nlinarith [Nat.mul_le_mul_right (x1 + 2) hy,
        Nat.mul_le_mul_right ((x1 + 2) * (y1 + 1)) hz]
  · rw [meshLoop3] at hw3
    simp only [List.mem_flatMap, List.mem_map, List.mem_range] at hw3
    rcases hw3 with ⟨zi, hzi, yi, hyi, xi, hxi, rfl⟩
    obtain ⟨x1, rfl⟩ : ∃ x1, X = x1 + 1 := ⟨X - 1, by omega⟩
    obtain ⟨y1, rfl⟩ : ∃ y1, Y = y1 + 1 := ⟨Y - 1, by omega⟩
    obtain ⟨z1, rfl⟩ : ∃ z1, Z = z1 + 2 := ⟨Z - 2, by omega⟩
    have hx : xi ≤ x1 := by omega
    have hy : yi ≤ y1 := by omega
    have hz : zi ≤ z1 := by omega
    constructor <;>
    · simp only
      nlinarith [Nat.mul_le_mul_right (x1 + 1) hy,
        Nat.mul_le_mul_right ((x1 + 1) * (y1 + 1)) hz]

/-- C8: for dimensions all at least 1 and not all equal to 1, with
`numSCC = 0`, the mesh generator issues one `init` call with
`num_verts = numX*numY*numZ` and `num_edges = (numX-1)*numY*numZ +
numX*(numY-1)*numZ + numX*numY*(numZ-1)`; the loop nests write every
edge index `0..num_edges-1` exactly once (in fact, in exactly that
order), and every written source and destination vertex id is below
`num_verts`. -/
theorem mesh_graph_init_call (X Y Z : Nat) (hX : 1 ≤ X) (hY : 1 ≤ Y)
    (hZ : 1 ≤ Z) (hne : ¬(X = 1 ∧ Y = 1 ∧ Z = 1)) :
    (generate_mesh_graph X Y Z).num_verts = X * Y * Z ∧
    (generate_mesh_graph X Y Z).num_edges =
      (X - 1) * Y * Z + X * (Y - 1) * Z + X * Y * (Z - 1) ∧
    (generate_mesh_graph X Y Z).writes.map (fun w => w.1) =
      List.range ((generate_mesh_graph X Y Z).num_edges) ∧
    (∀ w ∈ (generate_mesh_graph X Y Z).writes,
      w.2.1 < X * Y * Z ∧ w.2.2 < X * Y * Z) := by
  have hcond : ¬(X = 0 ∨ Y = 0 ∨ Z = 0 ∨ (X = 1 ∧ Y = 1 ∧ Z = 1)) := by
    push_neg
    refine ⟨by omega, by omega, by omega, ?_⟩
    intro h1 h2
    intro h3
    exact hne ⟨h1, h2, h3⟩
  rw [generate_mesh_graph, if_neg hcond]
  refine ⟨rfl, ?_, ?_, ?_⟩
  · show meshNumEdges X Y Z = _
    rw [meshNumEdges]; ring
  · exact meshWrites_fst X Y Z
  · exact meshWrites_bounds X Y Z

theorem mesh_graph_init_call_witness :
    (generate_mesh_graph 2 2 1).num_verts = 4 ∧
    (generate_mesh_graph 2 2 1).num_edges = 4 ∧
    (generate_mesh_graph 2 2 1).writes.map (fun w => w.1) =
      List.range ((generate_mesh_graph 2 2 1).num_edges) := by
  have h := mesh_graph_init_call 2 2 1 (by decide) (by decide) (by decide)
    (by decide)
  exact ⟨h.1, h.2.1, h.2.2.1⟩

/-- The read-only graph view consumed by `find_independent_set`
(`exercise4.cpp`): vertex ids `0..order-1`, the edge list in iteration
order as `(source id, target id)` pairs, and the out-degree map. -/
structure CsrGraph where
  order : Nat
  edgeList : List (Nat × Nat)
  outDeg : Nat → Nat

/-- The losing vertex of one edge game (`exercise4.cpp` lines 97-114):
the vertex with the lower out-degree wins; on a tie the vertex with the
lower id wins; the loser's id is answered. -/
def loserOf (g : CsrGraph) (uid vid : Nat) : Nat :=
  if g.outDeg uid < g.outDeg vid then vid
  else if g.outDeg vid < g.outDeg uid then uid
  else if uid < vid then vid
  else uid

/-- One iteration of the edge loop of `find_independent_set`
(`exercise4.cpp` lines 78-118): when both endpoints are still active
and the edge is not a self loop, the loser is deactivated; otherwise
nothing changes. -/
def independentStep (g : CsrGraph) (active : Nat → Bool)
    (e : Nat × Nat) : Nat → Bool :=
  if active e.1 && active e.2 && decide (e.1 ≠ e.2) then
    fun x => if x = loserOf g e.1 e.2 then false else active x
  else active

/-- The algorithm `find_independent_set` (`exercise4.cpp` lines 45-119), under
sequential execution: all vertices start active, then the edge list is
folded through the per-edge game. -/
def find_independent_set (g : CsrGraph) : Nat → Bool :=
  g.edgeList.foldl (independentStep g) (fun _ => true)

theorem loserOf_mem (g : CsrGraph) (u v : Nat) :
    loserOf g u v = u ∨ loserOf g u v = v := by
  rw [loserOf]
  split
  · right; rfl
  split
  · left; rfl
  split
  · right; rfl
  · left; rfl

theorem independentStep_mono (g : CsrGraph) (act : Nat → Bool)
    (e : Nat × Nat) (x : Nat) :
    independentStep g act e x = true → act x = true := by
  rw [independentStep]
  split
  · intro h
    by_cases hx : x = loserOf g e.1 e.2
    · simp [hx] at h
    · simpa [hx] using h
  · exact fun h => h

theorem foldl_independentStep_mono (g : CsrGraph) :
    ∀ (es : List (Nat × Nat)) (act : Nat → Bool) (x : Nat),
      (es.foldl (independentStep g) act) x = true → act x = true := by
  intro es
  induction es with
  | nil => intro act x h; exact h
  | cons e rest ih =>
    intro act x h
    rw [List.foldl_cons] at h
    exact independentStep_mono g act e x (ih _ x h)

theorem independentStep_kills (g : CsrGraph) (act : Nat → Bool)
    (u v : Nat) (huv : u ≠ v) :
    independentStep g act (u, v) u = false ∨
      independentStep g act (u, v) v = false := by
  have hred : independentStep g act (u, v) =
      if (act u && act v && decide (u ≠ v)) = true then
        (fun x => if x = loserOf g u v then false else act x)
      else act := rfl
  rw [hred]
  by_cases hcond : (act u && act v && decide (u ≠ v)) = true
  · rw [if_pos hcond]
    rcases loserOf_mem g u v with hl | hl
    · left; simp [hl]
    · right; simp [hl]
  · rw [if_neg hcond]
    simp only [Bool.and_eq_true, decide_eq_true_eq, not_and] at hcond
    by_cases hu : act u = true
    · right
      by_cases hv : act v = true
      · exact absurd huv (hcond ⟨hu, hv⟩)
      · simpa using hv
    · left
      simpa using hu

theorem foldl_independent (g : CsrGraph) :
    ∀ (es : List (Nat × Nat)) (act : Nat → Bool) (u v : Nat),
      (u, v) ∈ es → u ≠ v →
      (es.foldl (independentStep g) act) u = false ∨
        (es.foldl (independentStep g) act) v = false := by
  intro es
  induction es with
  | nil => intro act u v hm; cases hm
  | cons e rest ih =>
    intro act u v hm hne
    rw [List.foldl_cons]
    rcases List.mem_cons.mp hm with he | hm2
    · rw [← he]
      rcases independentStep_kills g act u v hne with hk | hk
      · left
        cases hf : (rest.foldl (independentStep g)
            (independentStep g act (u, v))) u
        · rfl
        · have := foldl_independentStep_mono g rest _ u hf
          rw [this] at hk
          cases hk
      · right
        cases hf : (rest.foldl (independentStep g)
            (independentStep g act (u, v))) v
        · rfl
        · have := foldl_independentStep_mono g rest _ v hf
          rw [this] at hk
          cases hk
    · exact ih _ u v hm2 hne

/-- C9: under sequential execution, after `find_independent_set`
returns, the active vertices form an independent set with respect to
the non-self-loop edges: every edge whose endpoint ids differ has at
least one inactive endpoint (each edge visit with both endpoints
active deactivates exactly the losing endpoint, and a deactivated
vertex is never reactivated). -/
theorem find_independent_set_independent (g : CsrGraph) (u v : Nat)
    (hmem : (u, v) ∈ g.edgeList) (hne : u ≠ v) :
    find_independent_set g u = false ∨
      find_independent_set g v = false :=
  foldl_independent g g.edgeList (fun _ => true) u v hmem hne

theorem find_independent_set_independent_witness :
    find_independent_set ⟨2, [(0, 1)], fun _ => 1⟩ 0 = false ∨
      find_independent_set ⟨2, [(0, 1)], fun _ => 1⟩ 1 = false :=
  find_independent_set_independent ⟨2, [(0, 1)], fun _ => 1⟩ 0 1
    (by simp) (by decide)

/-- The `matches` function of `mtgl_string.hpp` (named `matchesFn` here because `matches` is a Lean keyword) (lines 226-240): walks
the two character buffers with a mutable `match` flag and index `i`
while `match && i < short_len && i < long_len`, clearing the flag on
the first differing character.  The fuel argument bounds the loop by
the remaining iterations; `min long_len short_len` iterations always
suffice because `i` starts at 0 and increases by 1 while below both
lengths. -/
def matchesAux (long_string short_string : Nat → Char)
    (long_len short_len : Nat) : Bool → Nat → Nat → Bool
| m, _, 0 => m
| m, i, fuel + 1 =>
  if m = true ∧ i < short_len ∧ i < long_len then
    matchesAux long_string short_string long_len short_len
      (if long_string i = short_string i then m else false) (i + 1) fuel
  else m

/-- The function `matches(long_string, long_len, short_string, short_len)` from
`mtgl_string.hpp`, with buffers modelled as maps from indices to
characters. -/
def matchesFn (long_string : Nat → Char) (long_len : Nat)
    (short_string : Nat → Char) (short_len : Nat) : Bool :=
  matchesAux long_string short_string long_len short_len true 0
    (min long_len short_len)

theorem matchesAux_spec (ls ss : Nat → Char) (ll sl : Nat) :
    ∀ fuel m i, matchesAux ls ss ll sl m i fuel = true ↔
      (m = true ∧
        ∀ j, i ≤ j → j < i + fuel → j < sl → j < ll → ls j = ss j) := by
  intro fuel
  induction fuel with
  | zero =>
    intro m i
    rw [matchesAux]
    constructor
    · intro h
      exact ⟨h, fun j h1 h2 _ _ => by omega⟩
    · intro h
      exact h.1
  | succ f ih =>
    intro m i
    by_cases hg : m = true ∧ i < sl ∧ i < ll
    · rw [matchesAux, if_pos hg, ih]
      by_cases hls : ls i = ss i
      · rw [if_pos hls]
        constructor
        · rintro ⟨hm, hall⟩
          refine ⟨hm, fun j h1 h2 h3 h4 => ?_⟩
          rcases Nat.eq_or_lt_of_le h1 with rfl | hlt
          · exact hls
          · exact hall j hlt (by omega) h3 h4
        · rintro ⟨hm, hall⟩
          exact ⟨hm, fun j h1 h2 h3 h4 => hall j (by omega) (by omega) h3 h4⟩
      · rw [if_neg hls]
        simp only [Bool.false_eq_true, false_and, false_iff, not_and]
        intro _ hall
        exact hls (hall i (Nat.le_refl i) (by omega) hg.2.1 hg.2.2)
    · rw [matchesAux, if_neg hg]
      constructor
      · intro hm
        refine ⟨hm, fun j h1 h2 h3 h4 => ?_⟩
        exact absurd ⟨hm, by omega, by omega⟩ hg
      · intro h
        exact h.1

/-- C10: `matches` answers true exactly when the two buffers agree on
every index below `min(long_len, short_len)` — only the common prefix
is compared, so it answers true whenever either length is 0, and a
truncated buffer whose common prefix agrees is reported as a match. -/
theorem matches_iff_agree_below_min (ls : Nat → Char) (ll : Nat)
    (ss : Nat → Char) (sl : Nat) :
    matchesFn ls ll ss sl = true ↔
      ∀ i, i < min ll sl → ls i = ss i := by
  rw [matchesFn, matchesAux_spec]
  constructor
  · rintro ⟨_, hall⟩ i hi
    exact hall i (Nat.zero_le i) (by omega) (by omega) (by omega)
  · intro h
    exact ⟨rfl, fun j _ h2 h3 h4 => h j (by omega)⟩

theorem matches_iff_agree_below_min_witness :
    matchesFn (fun _ => 'a') 0 (fun _ => 'b') 5 = true ∧
    matchesFn (fun n => if n = 0 then 'a' else 'c') 1
      (fun n => if n = 0 then 'a' else 'd') 9 = true :=
  ⟨(matches_iff_agree_below_min _ 0 _ 5).mpr
      (fun i hi => absurd hi (by omega)),
    (matches_iff_agree_below_min _ 1 _ 9).mpr
      (fun i hi => by
        have : i = 0 := by omega
        simp [this])⟩
